import Mathlib

/-!
Shallow embedding of the nanoclaw Betty agent runner core
(src/container/betty-agent-runner/src/index.ts and the history store
memory.ts) together with proofs about its session or conversation engine,
history store, control channel and output framing.

Strings from the source are modelled as Lean `String`; the string
operations used by the code (suffix test, trim, lexicographic sort) are
implemented structurally over the underlying character lists so that every
definition is computable by the kernel.  External collaborators
(the chat-completions endpoint, the tool dispatcher, the JSON codec and the
clock) are parameters of the embedding, as they are process-external
request and response services from the point of view of the runner.
-/

namespace Nanoclaw

/-! ### Character-list utilities

`startsWithChars pat s` is true when `pat` is an initial segment of `s`;
`hasSuffix post s` models the JavaScript `s.endsWith(post)`;
`trimChars` models `String.prototype.trim` (whitespace stripped from both
ends); `lexLe` is lexicographic comparison of names, as used by the
default `Array.prototype.sort` comparator on ASCII file names. -/

def startsWithChars : List Char → List Char → Bool
  | [], _ => true
  | _ :: _, [] => false
  | p :: ps, c :: cs => p == c && startsWithChars ps cs

def hasSuffix (post s : List Char) : Bool :=
  startsWithChars post.reverse s.reverse

def trimChars (s : List Char) : List Char :=
  ((s.dropWhile Char.isWhitespace).reverse.dropWhile Char.isWhitespace).reverse

def lexLe : List Char → List Char → Bool
  | [], _ => true
  | _ :: _, [] => false
  | a :: as, b :: bs =>
    if a == b then lexLe as bs else a.toNat < b.toNat

/-- Stable insertion of one element into a list sorted by `le`. -/
def insertLe (le : α → α → Bool) (a : α) : List α → List α
  | [] => [a]
  | b :: bs => if le a b then a :: b :: bs else b :: insertLe le a bs

/-- Stable insertion sort; models `Array.prototype.sort` with the default
lexicographic comparator (the source sorts short ASCII file names). -/
def sortLe (le : α → α → Bool) : List α → List α
  | [] => []
  | a :: as => insertLe le a (sortLe le as)

/-- `splitFirst pat s` finds the first occurrence of the pattern `pat`
inside `s` and returns the part strictly before the occurrence and the
part strictly after it; `none` when `pat` does not occur. -/
def splitFirst (pat : List Char) : List Char → Option (List Char × List Char)
  | [] => if pat.isEmpty then some ([], []) else none
  | c :: rest =>
    if startsWithChars pat (c :: rest) then
      some ([], (c :: rest).drop pat.length)
    else
      match splitFirst pat rest with
      | some (pre, post) => some (c :: pre, post)
      | none => none

/-! ### Internal-reasoning delimiter stripping

Embeds `stripThinkTags` (index.ts):
`text.replace(/<think>[\s\S]*?<\/think>/g, '').trim()`.
The global, lazy regex repeatedly removes, scanning left to right, the span
from the first occurrence of the opening delimiter through the first
occurrence of the closing delimiter after it; scanning resumes after the
removed span.  `removeThinkAux` carries a fuel argument so the recursion is
structural; each removal shortens the text by at least the fifteen
delimiter characters, so fuel `s.length` is never exhausted. -/

def thinkOpen : List Char := "<think>".data

def thinkClose : List Char := "</think>".data

def removeThinkAux : Nat → List Char → List Char
  | 0, s => s
  | fuel + 1, s =>
    match splitFirst thinkOpen s with
    | none => s
    | some (pre, afterOpen) =>
      match splitFirst thinkClose afterOpen with
      | none => s
      | some (_, post) => pre ++ removeThinkAux fuel post

def removeThink (s : List Char) : List Char :=
  removeThinkAux s.length s

def stripThinkTags (text : String) : String :=
  String.mk (trimChars (removeThink text.data))

/-- Whether the text contains a paired opening and closing delimiter, in
that order; exactly when it does, the regex of `stripThinkTags` has a
match. -/
def containsThinkPair (s : List Char) : Bool :=
  match splitFirst thinkOpen s with
  | none => false
  | some (_, afterOpen) => (splitFirst thinkClose afterOpen).isSome

/-! ### History store (memory.ts)

The backing log is a line-delimited file; `fileLines` stands for the list
`content.trim().split('\n')`.  `parse` stands for the external JSON codec
applied to one line: `parse line = some m` when `JSON.parse(line)` yields
the record `m`, `none` when it throws.  Blank lines are skipped before
parsing, exactly as in the source (`if (!line.trim()) continue`). -/

inductive Role where
  | system
  | user
  | assistant
  | tool
  deriving DecidableEq

structure HistoryMessage where
  role : Role
  content : String
  name : Option String := none
  tool_calls : Option (List String) := none
  tool_call_id : Option String := none
  timestamp : String
  deriving DecidableEq

def MAX_HISTORY_MESSAGES : Nat := 50

def loadHistory (parse : String → Option HistoryMessage)
    (fileLines : List String) : List HistoryMessage :=
  let messages := fileLines.foldl
    (fun acc line =>
      if trimChars line.data = [] then acc
      else
        match parse line with
        | some m => acc ++ [m]
        | none => acc)
    []
  messages.drop (messages.length - MAX_HISTORY_MESSAGES)

/-! ### Conversation engine (runConversation, index.ts)

The chat-completions endpoint is modelled as an oracle from the round
number (1-based, the value of the `rounds` counter when the request is
made) to the first choice of the response: `none` models a response with
no choice at all.  The tool dispatcher is `execTool name rawArgs`,
standing for `executeTool(name, JSON.parse(rawArguments) or empty-object,
chatJid)` with the chat identity fixed for the turn; per the dispatcher
contract it never throws and always yields a result string.  `clock k`
stands for the k-th value of `new Date().toISOString()` taken during the
turn (index 0 for the user entry, index r for an entry persisted on round
r).  The `while (rounds < MAX_TOOL_ROUNDS)` loop is driven by the
structurally decreasing fuel `MAX_TOOL_ROUNDS - rounds`. -/

structure ToolCallFn where
  name : String
  arguments : String
  deriving DecidableEq

structure ToolCall where
  id : String
  function : ToolCallFn
  deriving DecidableEq

structure AssistantMsg where
  content : Option String
  tool_calls : Option (List ToolCall)
  deriving DecidableEq

structure Choice where
  message : AssistantMsg
  finish_reason : String
  deriving DecidableEq

/-- One entry of the in-memory working sequence `messages`. -/
inductive ChatMsg where
  | system (content : String)
  | fromHistory (m : HistoryMessage)
  | assistant (m : AssistantMsg)
  | tool (tool_call_id : String) (content : String)
  deriving DecidableEq

def MAX_TOOL_ROUNDS : Nat := 15

/-- The observable outcome of one `runConversation` call: the returned
text, the records appended to the durable history store during the call
(in append order), the final in-memory working sequence, and the final
value of the `rounds` counter. -/
structure ConvResult where
  result : String
  appended : List HistoryMessage
  messages : List ChatMsg
  rounds : Nat
  deriving DecidableEq

def assistantEntry (text ts : String) : HistoryMessage :=
  { role := Role.assistant, content := text, timestamp := ts }

def runRoundsAux (oracle : Nat → Option Choice) (execTool : String → String → String)
    (clock : Nat → String) :
    Nat → Nat → List ChatMsg → ConvResult
  | 0, rounds, messages =>
    { result := "Reached maximum tool call rounds. Please try a simpler request."
      appended := []
      messages := messages
      rounds := rounds }
  | fuel + 1, rounds, messages =>
    let r := rounds + 1
    match oracle r with
    | none =>
      { result := "No response from model."
        appended := []
        messages := messages
        rounds := r }
    | some choice =>
      let am := choice.message
      let messages1 := messages ++ [ChatMsg.assistant am]
      if am.tool_calls.getD [] = [] then
        let text := stripThinkTags (am.content.getD "")
        { result := text
          appended := [assistantEntry text (clock r)]
          messages := messages1
          rounds := r }
      else
        let messages2 := messages1 ++ (am.tool_calls.getD []).map
          (fun tc => ChatMsg.tool tc.id (execTool tc.function.name tc.function.arguments))
        if choice.finish_reason = "stop" then
          let text := stripThinkTags (am.content.getD "")
          { result := text
            appended := [assistantEntry text (clock r)]
            messages := messages2
            rounds := r }
        else
          runRoundsAux oracle execTool clock fuel r messages2

def userEntry (userMessage ts : String) : HistoryMessage :=
  { role := Role.user, content := userMessage, timestamp := ts }

/-- `runConversation(client, model, systemPrompt, userMessage, chatJid)`.
`priorHistory` is the list returned by `loadHistory()` at the start of the
call; the new user entry is appended durably and to the working copy, the
model-facing sequence is one system message followed by the history, and
the round loop runs entered with `rounds = 0`.  The returned `appended`
starts with the user entry followed by whatever the loop persisted. -/
def runConversation (oracle : Nat → Option Choice) (execTool : String → String → String)
    (clock : Nat → String) (priorHistory : List HistoryMessage)
    (systemPrompt userMessage : String) : ConvResult :=
  let u := userEntry userMessage (clock 0)
  let history := priorHistory ++ [u]
  let messages := ChatMsg.system systemPrompt :: history.map ChatMsg.fromHistory
  let r := runRoundsAux oracle execTool clock MAX_TOOL_ROUNDS 0 messages
  { r with appended := u :: r.appended }

/-! ### Control channel (shouldClose, drainIpcInput; index.ts)

The mailbox directory `/workspace/ipc/input` is modelled as an association
list of file name and file content.  A file content either fails to parse
as JSON (`malformed`) or parses to an object with a `type` and a `text`
field; an absent or non-string `text` is modelled as the empty string,
matching its falsiness in the `data.type === 'message' && data.text`
check. -/

inductive FileContent where
  | malformed
  | parsed (type : String) (text : String)
  deriving DecidableEq

abbrev MailboxDir := List (String × FileContent)

def CLOSE_SENTINEL_NAME : String := "_close"

/-- `fs.existsSync` on a name in the directory model. -/
def fileExists (name : String) (dir : MailboxDir) : Bool :=
  dir.any (fun f => f.1 = name)

/-- `fs.unlinkSync` on a name in the directory model. -/
def removeFile (name : String) (dir : MailboxDir) : MailboxDir :=
  dir.filter (fun f => f.1 ≠ name)

/-- `fs.readFileSync` followed by `JSON.parse` in the directory model. -/
def lookupFile (name : String) : MailboxDir → Option FileContent
  | [] => none
  | f :: rest => if f.1 = name then some f.2 else lookupFile name rest

/-- `shouldClose()`: if the close sentinel exists, delete it and report
true; otherwise report false.  Returns the result together with the
directory state after the call. -/
def shouldClose (dir : MailboxDir) : Bool × MailboxDir :=
  if fileExists CLOSE_SENTINEL_NAME dir then
    (true, removeFile CLOSE_SENTINEL_NAME dir)
  else
    (false, dir)

/-- Extraction of the text payload from one parsed mailbox file:
`data.type === 'message' && data.text` pushes `data.text`. -/
def messagePayload : FileContent → Option String
  | FileContent.malformed => none
  | FileContent.parsed ty tx => if ty = "message" ∧ tx ≠ "" then some tx else none

/-- Processing of one listed file inside the drain loop: read and parse
the file, delete it, and push its payload when it is an actionable
message; a file that fails to parse is deleted and skipped. -/
def drainStep (st : List String × MailboxDir) (name : String) :
    List String × MailboxDir :=
  match lookupFile name st.2 with
  | none => st
  | some fc =>
    (match messagePayload fc with
     | some tx => st.1 ++ [tx]
     | none => st.1,
     removeFile name st.2)

/-- The listing `readdirSync(dir).filter((f) => f.endsWith('.json')).sort()`. -/
def eligibleNames (dir : MailboxDir) : List String :=
  sortLe (fun a b => lexLe a.data b.data)
    ((dir.map Prod.fst).filter (fun n => hasSuffix ".json".data n.data))

/-- `drainIpcInput()`: list the `.json` files in lexicographic name order
and process each one; returns the extracted texts together with the
directory state after the call. -/
def drainIpcInput (dir : MailboxDir) : List String × MailboxDir :=
  (eligibleNames dir).foldl drainStep ([], dir)

/-! ### Output framing (writeOutput; index.ts) and the session frames

`serialize` stands for `JSON.stringify` on one output record; each
`console.log` call contributes one line to standard output. -/

inductive OutStatus where
  | success
  | error
  deriving DecidableEq

/-- The `ContainerOutput` record. -/
structure ContainerOutput where
  status : OutStatus
  result : Option String
  newSessionId : Option String := none
  error : Option String := none
  deriving DecidableEq

def OUTPUT_START_MARKER : String := "---NANOCLAW_OUTPUT_START---"

def OUTPUT_END_MARKER : String := "---NANOCLAW_OUTPUT_END---"

/-- `writeOutput(output)`: the exact lines written to standard output for
one record. -/
def writeOutput (serialize : ContainerOutput → String) (o : ContainerOutput) :
    List String :=
  [OUTPUT_START_MARKER, serialize o, OUTPUT_END_MARKER]

/-- The standard-output stream produced by a sequence of `writeOutput`
calls. -/
def emitAll (serialize : ContainerOutput → String) (frames : List ContainerOutput) :
    List String :=
  (frames.map (writeOutput serialize)).flatten

/-- Host-side delimiting scanner: skip noise until a start marker, take
the next line as the payload, then skip until the end marker and
continue. -/
inductive ScanState where
  | outside
  | expectPayload
  | skipToEnd
  deriving DecidableEq

def extractGo : ScanState → List String → List String
  | _, [] => []
  | ScanState.outside, l :: rest =>
    if l = OUTPUT_START_MARKER then extractGo ScanState.expectPayload rest
    else extractGo ScanState.outside rest
  | ScanState.expectPayload, l :: rest => l :: extractGo ScanState.skipToEnd rest
  | ScanState.skipToEnd, l :: rest =>
    if l = OUTPUT_END_MARKER then extractGo ScanState.outside rest
    else extractGo ScanState.skipToEnd rest

def extractRecords (lines : List String) : List String :=
  extractGo ScanState.outside lines

/-! ### Session controller frames (main; index.ts)

The frames the process writes, per source line:
startup failure (the stdin payload fails to parse; note the record built
there carries no session identifier), per-turn success, the result-less
session-liveness heartbeat, and the turn-fatal error frame. -/

/-- The frame written when parsing the initial stdin payload fails; built
before any session identifier exists. -/
def startupErrorFrame (errMsg : String) : ContainerOutput :=
  { status := OutStatus.error, result := none, error := some errMsg }

/-- The success frame for one turn: `result: response || null`. -/
def successFrame (sessionId response : String) : ContainerOutput :=
  { status := OutStatus.success
    result := if response = "" then none else some response
    newSessionId := some sessionId }

/-- The result-less session-liveness heartbeat frame. -/
def heartbeatFrame (sessionId : String) : ContainerOutput :=
  { status := OutStatus.success, result := none, newSessionId := some sessionId }

/-- The frame written when a Running-state turn raises an uncaught
error. -/
def turnErrorFrame (sessionId errMsg : String) : ContainerOutput :=
  { status := OutStatus.error, result := none, newSessionId := some sessionId
    error := some errMsg }

/-- One observable step of the query loop in `main`: a turn either
completes and the close sentinel is seen right after the success frame, or
completes and the later wait resolves to the close outcome, or completes
and the wait yields the next prompt, or raises an uncaught error. -/
inductive TurnStep where
  | closedAfter (response : String)
  | closedAtWait (response : String)
  | next (response : String) (nextPrompt : String)
  | failed (errMsg : String)
  deriving DecidableEq

/-- The sequence of output frames the query loop writes for a given trace
of turn steps, read off the source: success frame, then (unless the close
sentinel was just consumed) the heartbeat frame, then either loop again,
stop, or write the turn-fatal error frame. -/
def sessionFrames (sessionId : String) : List TurnStep → List ContainerOutput
  | [] => []
  | TurnStep.failed e :: _ => [turnErrorFrame sessionId e]
  | TurnStep.closedAfter r :: _ => [successFrame sessionId r]
  | TurnStep.closedAtWait r :: _ => [successFrame sessionId r, heartbeatFrame sessionId]
  | TurnStep.next r _ :: rest =>
    successFrame sessionId r :: heartbeatFrame sessionId :: sessionFrames sessionId rest

/-! ### Concrete instances used by the witness theorems -/

/-- A completion-service choice that always requests one tool call and
does not finish with reason stop. -/
def toolishChoice : Choice :=
  { message :=
      { content := some "working"
        tool_calls := some [{ id := "call-1", function := { name := "read_file", arguments := "" } }] }
    finish_reason := "tool_calls" }

/-- A completion-service choice carrying a tool-call-free final answer. -/
def finalChoice : Choice :=
  { message := { content := some "<think>scratch</think>Hello", tool_calls := none }
    finish_reason := "stop" }

/-- A toy line codec for the history store witness: whitespace-only lines
and the line `bad` fail to parse, every other line parses to a user record
with the line as its content. -/
def parseW (line : String) : Option HistoryMessage :=
  if trimChars line.data = [] ∨ line = "bad" then none
  else some (userEntry line "2024-01-01T00:00:00Z")

/-- A concrete mailbox directory state: two actionable message files
listed out of lexicographic order, the close sentinel, a non-json file, a
malformed file, a file of the wrong type and a message file with empty
text. -/
def dirW : MailboxDir :=
  [ ("b.json", FileContent.parsed "message" "second")
  , ("_close", FileContent.malformed)
  , ("a.json", FileContent.parsed "message" "first")
  , ("notes.txt", FileContent.parsed "message" "never")
  , ("c.json", FileContent.malformed)
  , ("d.json", FileContent.parsed "status" "nope")
  , ("e.json", FileContent.parsed "message" "") ]

/-! ## Theorems -/

theorem startsWithChars_length :
    ∀ {pat s : List Char}, startsWithChars pat s = true → pat.length ≤ s.length := by
  intro pat
  induction pat with
  | nil => intro s _; simp
  | cons p ps ih =>
    intro s h
    cases s with
    | nil => simp [startsWithChars] at h
    | cons c cs =>
      simp only [startsWithChars, Bool.and_eq_true] at h
      simpa using Nat.succ_le_succ (ih h.2)

theorem splitFirst_length {pat : List Char} :
    ∀ {s pre post : List Char}, splitFirst pat s = some (pre, post) →
      s.length = pre.length + pat.length + post.length := by
  intro s
  induction s with
  | nil =>
    intro pre post h
    simp only [splitFirst] at h
    by_cases hp : pat.isEmpty
    · simp only [hp, if_true, Option.some.injEq, Prod.mk.injEq] at h
      obtain ⟨h1, h2⟩ := h
      subst h1; subst h2
      simp [List.isEmpty_iff.mp hp]
    · simp [hp] at h
  | cons c rest ih =>
    intro pre post h
    simp only [splitFirst] at h
    by_cases hs : startsWithChars pat (c :: rest) = true
    · simp only [hs, if_true, Option.some.injEq, Prod.mk.injEq] at h
      obtain ⟨h1, h2⟩ := h
      subst h1
      have hlen : pat.length ≤ (c :: rest).length := startsWithChars_length hs
      subst h2
      simp only [List.length_drop, List.length_nil]
      omega
    · simp only [hs, if_false, Bool.false_eq_true] at h
      cases hsplit : splitFirst pat rest with
      | none => simp [hsplit] at h
      | some pr =>
        obtain ⟨pre0, post0⟩ := pr
        simp only [hsplit, Option.some.injEq, Prod.mk.injEq] at h
        obtain ⟨h1, h2⟩ := h
        subst h2
        have := ih hsplit
        cases pre with
        | nil => simp at h1
        | cons x xs =>
          simp only [List.cons.injEq] at h1
          obtain ⟨hx, hxs⟩ := h1
          subst hxs
          simp only [List.length_cons, this]
          omega

theorem removeThinkAux_nil : ∀ f : Nat, removeThinkAux f [] = [] := by
  intro f
  cases f with
  | zero => rfl
  | succ g => rfl

/-- Fuel canonicalization: any fuel at least the length of the text
computes the same result as fuel exactly the length, so `removeThink` is
the true fixpoint of the regex scan. -/
theorem removeThinkAux_canon :
    ∀ (n : Nat) (s : List Char) (f : Nat), s.length = n → n ≤ f →
      removeThinkAux f s = removeThinkAux n s := by
  intro n
  induction n using Nat.strong_induction_on with
  | _ n ih =>
    intro s f hlen hf
    cases n with
    | zero =>
      have hs : s = [] := List.length_eq_zero.mp hlen
      subst hs
      rw [removeThinkAux_nil]
      rfl
    | succ m =>
      obtain ⟨g, hg⟩ : ∃ g, f = g + 1 := ⟨f - 1, by omega⟩
      subst hg
      simp only [removeThinkAux]
      cases hsp : splitFirst thinkOpen s with
      | none => rfl
      | some pr =>
        obtain ⟨pre, afterOpen⟩ := pr
        simp only
        cases hsc : splitFirst thinkClose afterOpen with
        | none => rfl
        | some pr2 =>
          obtain ⟨mid, post⟩ := pr2
          simp only
          have hl1 := splitFirst_length hsp
          have hl2 := splitFirst_length hsc
          simp [thinkOpen] at hl1
          simp [thinkClose] at hl2
          have hplt : post.length < m + 1 := by omega
          have e1 := ih post.length hplt post g rfl (by omega)
          have e2 := ih post.length hplt post m rfl (by omega)
          rw [e1, e2]

/-- The defining recursion of `removeThink`: the first paired delimiter
span (opening tag, enclosed text, closing tag) is removed in its entirety
and scanning continues after it. -/
theorem removeThink_step {s pre afterOpen mid post : List Char}
    (hop : splitFirst thinkOpen s = some (pre, afterOpen))
    (hcl : splitFirst thinkClose afterOpen = some (mid, post)) :
    removeThink s = pre ++ removeThink post := by
  have hl1 := splitFirst_length hop
  have hl2 := splitFirst_length hcl
  simp [thinkOpen] at hl1
  simp [thinkClose] at hl2
  obtain ⟨n, hn⟩ : ∃ n, s.length = n + 1 := ⟨s.length - 1, by omega⟩
  unfold removeThink
  rw [hn]
  simp only [removeThinkAux, hop, hcl]
  congr 1
  exact removeThinkAux_canon post.length post n rfl (by omega)

theorem removeThink_of_no_pair {s : List Char}
    (h : containsThinkPair s = false) : removeThink s = s := by
  unfold containsThinkPair at h
  unfold removeThink
  cases hn : s.length with
  | zero => rfl
  | succ n =>
    simp only [removeThinkAux]
    cases hsp : splitFirst thinkOpen s with
    | none => rfl
    | some pr =>
      obtain ⟨pre, afterOpen⟩ := pr
      simp only [hsp] at h
      simp only
      cases hsc : splitFirst thinkClose afterOpen with
      | none => rfl
      | some pr2 => simp [hsc] at h

/-- Claim C6: the internal-reasoning delimiter stripper maps
`<think>scratch</think>Hello` to `Hello`; an input with no paired
delimiter is returned unchanged except for trimming surrounding
whitespace; and every paired delimiter span (the first opening tag through
the first closing tag after it, scanning repeatedly) is removed in its
entirety. -/
theorem stripThinkTags_spec :
    stripThinkTags "<think>scratch</think>Hello" = "Hello" ∧
    (∀ s : String, containsThinkPair s.data = false →
      stripThinkTags s = String.mk (trimChars s.data)) ∧
    (∀ s pre afterOpen mid post : List Char,
      splitFirst thinkOpen s = some (pre, afterOpen) →
      splitFirst thinkClose afterOpen = some (mid, post) →
      removeThink s = pre ++ removeThink post) := by
  refine ⟨by decide, ?_, ?_⟩
  · intro s h
    unfold stripThinkTags
    rw [removeThink_of_no_pair h]
  · intro s pre afterOpen mid post hop hcl
    exact removeThink_step hop hcl

/-- Witness for C6: the no-pair clause evaluated on a concrete untagged
input, and the span-removal clause evaluated on a concrete tagged
input. -/
theorem stripThinkTags_spec_witness :
    stripThinkTags "  plain answer " = "plain answer" ∧
    removeThink "<think>a</think>b".data = [] ++ removeThink "b".data := by
  constructor
  · have h := stripThinkTags_spec.2.1 "  plain answer " (by decide)
    rw [h]
    decide
  · exact stripThinkTags_spec.2.2 "<think>a</think>b".data [] "a</think>b".data
      "a".data "b".data (by decide) (by decide)

theorem filterMap_length_of_all_some {parse : String → Option HistoryMessage} :
    ∀ {xs : List String}, (∀ l ∈ xs, ∃ m, parse l = some m) →
      (xs.filterMap parse).length = xs.length := by
  intro xs
  induction xs with
  | nil => intro _; rfl
  | cons x rest ih =>
    intro h
    obtain ⟨m, hm⟩ := h x (by simp)
    have := ih (fun l hl => h l (by simp [hl]))
    simp [List.filterMap_cons, hm, this]

theorem loadHistory_foldl (parse : String → Option HistoryMessage)
    (hblank : ∀ l, trimChars l.data = [] → parse l = none) :
    ∀ (lines : List String) (acc : List HistoryMessage),
      lines.foldl
        (fun acc line =>
          if trimChars line.data = [] then acc
          else
            match parse line with
            | some m => acc ++ [m]
            | none => acc)
        acc = acc ++ lines.filterMap parse := by
  intro lines
  induction lines with
  | nil => intro acc; simp
  | cons l ls ih =>
    intro acc
    simp only [List.foldl_cons, List.filterMap_cons]
    by_cases hb : trimChars l.data = []
    · rw [if_pos hb, hblank l hb, ih]
    · rw [if_neg hb]
      cases hp : parse l with
      | none => rw [ih]
      | some m =>
        rw [ih]
        simp

/-- Claim C2: `load()` returns exactly the well-formed records of the
persisted log in original order, truncated to at most the last 50; a log
with more than 50 well-formed records yields a result of length exactly
50; and a log holding one malformed line among well-formed lines (at most
50 of them, per the truncation bound of the first clause) yields exactly
the parses of all the well-formed lines, including those after the
malformed one.  The hypothesis records that the external JSON codec
rejects whitespace-only lines, which the source skips before parsing. -/
theorem loadHistory_spec (parse : String → Option HistoryMessage)
    (fileLines : List String)
    (hblank : ∀ l, trimChars l.data = [] → parse l = none) :
    loadHistory parse fileLines =
      (fileLines.filterMap parse).drop
        ((fileLines.filterMap parse).length - MAX_HISTORY_MESSAGES) ∧
    (MAX_HISTORY_MESSAGES < (fileLines.filterMap parse).length →
      (loadHistory parse fileLines).length = MAX_HISTORY_MESSAGES) ∧
    (∀ (pre post : List String) (bad : String), fileLines = pre ++ bad :: post →
      parse bad = none →
      (∀ l ∈ pre, ∃ m, parse l = some m) →
      (∀ l ∈ post, ∃ m, parse l = some m) →
      pre.length + post.length ≤ MAX_HISTORY_MESSAGES →
      loadHistory parse fileLines = pre.filterMap parse ++ post.filterMap parse ∧
      (loadHistory parse fileLines).length = pre.length + post.length) := by
  have hmain : loadHistory parse fileLines =
      (fileLines.filterMap parse).drop
        ((fileLines.filterMap parse).length - MAX_HISTORY_MESSAGES) := by
    unfold loadHistory
    rw [loadHistory_foldl parse hblank fileLines []]
    simp
  refine ⟨hmain, ?_, ?_⟩
  · intro hgt
    rw [hmain, List.length_drop]
    omega
  · intro pre post bad hsplit hbad hpre hpost hle
    subst hsplit
    have hwf : ((pre ++ bad :: post).filterMap parse) =
        pre.filterMap parse ++ post.filterMap parse := by
      simp [List.filterMap_append, List.filterMap_cons, hbad]
    have hlenpre := filterMap_length_of_all_some hpre
    have hlenpost := filterMap_length_of_all_some hpost
    have hlen : ((pre ++ bad :: post).filterMap parse).length =
        pre.length + post.length := by
      rw [hwf, List.length_append, hlenpre, hlenpost]
    constructor
    · rw [hmain, hlen, hwf]
      have : pre.length + post.length - MAX_HISTORY_MESSAGES = 0 := by omega
      rw [this, List.drop_zero]
    · rw [hmain, List.length_drop, hlen]
      omega

/-- Witness for C2: a concrete three-line log whose middle line fails to
parse yields exactly the two surrounding records, in order. -/
theorem loadHistory_spec_witness :
    loadHistory parseW ["first line", "bad", "second line"] =
      List.filterMap parseW ["first line"] ++ List.filterMap parseW ["second line"] ∧
    (loadHistory parseW ["first line", "bad", "second line"]).length = 1 + 1 := by
  have h := (loadHistory_spec parseW ["first line", "bad", "second line"]
      (fun l hl => by simp [parseW, hl])).2.2
      ["first line"] ["second line"] "bad" rfl (by decide)
      (fun l hl => by
        simp only [List.mem_singleton] at hl
        subst hl
        exact ⟨userEntry "first line" "2024-01-01T00:00:00Z", by decide⟩)
      (fun l hl => by
        simp only [List.mem_singleton] at hl
        subst hl
        exact ⟨userEntry "second line" "2024-01-01T00:00:00Z", by decide⟩)
      (by decide)
  simpa using h

theorem runRoundsAux_cap (oracle : Nat → Option Choice)
    (execTool : String → String → String) (clock : Nat → String) :
    ∀ (fuel rounds : Nat) (messages : List ChatMsg),
      fuel + rounds = MAX_TOOL_ROUNDS →
      (∀ r, rounds < r → r ≤ MAX_TOOL_ROUNDS →
        ∃ c, oracle r = some c ∧ c.message.tool_calls.getD [] ≠ [] ∧
          c.finish_reason ≠ "stop") →
      (runRoundsAux oracle execTool clock fuel rounds messages).result =
          "Reached maximum tool call rounds. Please try a simpler request." ∧
      (runRoundsAux oracle execTool clock fuel rounds messages).appended = [] ∧
      (runRoundsAux oracle execTool clock fuel rounds messages).rounds =
          MAX_TOOL_ROUNDS := by
  intro fuel
  induction fuel with
  | zero =>
    intro rounds messages hsum _
    refine ⟨rfl, rfl, ?_⟩
    simpa [runRoundsAux] using hsum
  | succ g ih =>
    intro rounds messages hsum h
    obtain ⟨c, hc, htc, hfr⟩ := h (rounds + 1) (by omega) (by omega)
    have hstep : runRoundsAux oracle execTool clock (g + 1) rounds messages =
        runRoundsAux oracle execTool clock g (rounds + 1)
          ((messages ++ [ChatMsg.assistant c.message]) ++
            (c.message.tool_calls.getD []).map
              (fun tc => ChatMsg.tool tc.id
                (execTool tc.function.name tc.function.arguments))) := by
      simp only [runRoundsAux, hc]
      rw [if_neg htc, if_neg hfr]
    rw [hstep]
    exact ih (rounds + 1) _ (by omega)
      (fun r h1 h2 => h r (by omega) h2)

/-- Claim C1: when the completion service returns on every round a choice
whose assistant message carries at least one tool call and whose finish
reason is not stop, the engine performs exactly `MAX_TOOL_ROUNDS = 15`
completion-service rounds, returns the fixed cap-exceeded text, and the
only record appended to the durable history store during the turn is the
initial user message. -/
theorem runConversation_round_cap (oracle : Nat → Option Choice)
    (execTool : String → String → String) (clock : Nat → String)
    (priorHistory : List HistoryMessage) (systemPrompt userMessage : String)
    (h : ∀ r, 1 ≤ r → r ≤ MAX_TOOL_ROUNDS →
      ∃ c, oracle r = some c ∧ c.message.tool_calls.getD [] ≠ [] ∧
        c.finish_reason ≠ "stop") :
    (runConversation oracle execTool clock priorHistory systemPrompt userMessage).rounds =
        MAX_TOOL_ROUNDS ∧
    (runConversation oracle execTool clock priorHistory systemPrompt userMessage).result =
        "Reached maximum tool call rounds. Please try a simpler request." ∧
    (runConversation oracle execTool clock priorHistory systemPrompt userMessage).appended =
        [userEntry userMessage (clock 0)] := by
  have hcap := runRoundsAux_cap oracle execTool clock MAX_TOOL_ROUNDS 0
    (ChatMsg.system systemPrompt ::
      (priorHistory ++ [userEntry userMessage (clock 0)]).map ChatMsg.fromHistory)
    (by omega) (fun r h1 h2 => h r (by omega) h2)
  unfold runConversation
  refine ⟨?_, ?_, ?_⟩
  · simpa using hcap.2.2
  · simpa using hcap.1
  · simpa using hcap.2.1

/-- Witness for C1: a concrete oracle that always requests one tool call
with finish reason distinct from stop drives the engine through all 15
rounds, yields the cap-exceeded text, and persists only the user entry. -/
theorem runConversation_round_cap_witness :
    (runConversation (fun _ => some toolishChoice) (fun _ _ => "tool output")
        (fun _ => "2024-01-01T00:00:00Z") [] "system prompt" "hi").rounds =
        MAX_TOOL_ROUNDS ∧
    (runConversation (fun _ => some toolishChoice) (fun _ _ => "tool output")
        (fun _ => "2024-01-01T00:00:00Z") [] "system prompt" "hi").result =
        "Reached maximum tool call rounds. Please try a simpler request." ∧
    (runConversation (fun _ => some toolishChoice) (fun _ _ => "tool output")
        (fun _ => "2024-01-01T00:00:00Z") [] "system prompt" "hi").appended =
        [userEntry "hi" "2024-01-01T00:00:00Z"] :=
  runConversation_round_cap (fun _ => some toolishChoice) (fun _ _ => "tool output")
    (fun _ => "2024-01-01T00:00:00Z") [] "system prompt" "hi"
    (fun r _ _ => ⟨toolishChoice, rfl, by decide, by decide⟩)

/-- Claim C5: when the first round returns a choice whose assistant
message carries no tool calls, the engine returns the delimiter-stripped
message text and appends exactly two records to the durable history store:
the user entry followed by one assistant entry carrying the cleaned
text. -/
theorem runConversation_first_round_final (oracle : Nat → Option Choice)
    (execTool : String → String → String) (clock : Nat → String)
    (priorHistory : List HistoryMessage) (systemPrompt userMessage : String)
    (c : Choice) (h1 : oracle 1 = some c)
    (h2 : c.message.tool_calls.getD [] = []) :
    (runConversation oracle execTool clock priorHistory systemPrompt userMessage).result =
        stripThinkTags (c.message.content.getD "") ∧
    (runConversation oracle execTool clock priorHistory systemPrompt userMessage).appended =
        [userEntry userMessage (clock 0),
         assistantEntry (stripThinkTags (c.message.content.getD "")) (clock 1)] := by
  unfold runConversation
  rw [show (MAX_TOOL_ROUNDS : Nat) = 14 + 1 from rfl]
  simp only [runRoundsAux, h1]
  rw [if_pos h2]
  exact ⟨rfl, by simp⟩

/-- Witness for C5: a concrete one-round oracle returning a tool-call-free
final message; the engine returns the cleaned text and persists the user
entry then the assistant entry. -/
theorem runConversation_first_round_final_witness :
    (runConversation (fun r => if r = 1 then some finalChoice else none)
        (fun _ _ => "unused") (fun k => if k = 0 then "T0" else "T1")
        [] "system prompt" "hello there").result =
        stripThinkTags (finalChoice.message.content.getD "") ∧
    (runConversation (fun r => if r = 1 then some finalChoice else none)
        (fun _ _ => "unused") (fun k => if k = 0 then "T0" else "T1")
        [] "system prompt" "hello there").appended =
        [userEntry "hello there" "T0",
         assistantEntry (stripThinkTags (finalChoice.message.content.getD "")) "T1"] :=
  runConversation_first_round_final (fun r => if r = 1 then some finalChoice else none)
    (fun _ _ => "unused") (fun k => if k = 0 then "T0" else "T1")
    [] "system prompt" "hello there" finalChoice rfl (by decide)

theorem runRoundsAux_appended_shape (oracle : Nat → Option Choice)
    (execTool : String → String → String) (clock : Nat → String) :
    ∀ (fuel rounds : Nat) (messages : List ChatMsg),
      (runRoundsAux oracle execTool clock fuel rounds messages).appended = [] ∨
      ∃ ts, (runRoundsAux oracle execTool clock fuel rounds messages).appended =
        [assistantEntry
          (runRoundsAux oracle execTool clock fuel rounds messages).result ts] := by
  intro fuel
  induction fuel with
  | zero => intro rounds messages; left; rfl
  | succ g ih =>
    intro rounds messages
    simp only [runRoundsAux]
    cases hc : oracle (rounds + 1) with
    | none => left; rfl
    | some c =>
      simp only
      by_cases htc : c.message.tool_calls.getD [] = []
      · rw [if_pos htc]
        right
        exact ⟨clock (rounds + 1), rfl⟩
      · rw [if_neg htc]
        by_cases hfr : c.finish_reason = "stop"
        · rw [if_pos hfr]
          right
          exact ⟨clock (rounds + 1), rfl⟩
        · rw [if_neg hfr]
          exact ih (rounds + 1) _

/-- Claim C9: for every completion oracle, tool dispatcher, clock and
prior history, the records appended to the durable history store during a
turn are exactly the initial user entry, optionally followed by a single
plain assistant entry carrying the returned text; no appended record has
the tool role, carries tool calls, or carries a tool call identifier. -/
theorem runConversation_appended_invariant (oracle : Nat → Option Choice)
    (execTool : String → String → String) (clock : Nat → String)
    (priorHistory : List HistoryMessage) (systemPrompt userMessage : String) :
    ∃ rest,
      (runConversation oracle execTool clock priorHistory systemPrompt userMessage).appended =
        userEntry userMessage (clock 0) :: rest ∧
      (rest = [] ∨ ∃ ts, rest =
        [assistantEntry
          (runConversation oracle execTool clock priorHistory systemPrompt userMessage).result
          ts]) ∧
      ∀ m ∈ (runConversation oracle execTool clock priorHistory systemPrompt
          userMessage).appended,
        m.role ≠ Role.tool ∧ m.tool_calls = none ∧ m.tool_call_id = none := by
  have hsh := runRoundsAux_appended_shape oracle execTool clock MAX_TOOL_ROUNDS 0
    (ChatMsg.system systemPrompt ::
      (priorHistory ++ [userEntry userMessage (clock 0)]).map ChatMsg.fromHistory)
  unfold runConversation
  simp only
  refine ⟨_, rfl, ?_, ?_⟩
  · rcases hsh with h | ⟨ts, h⟩
    · left; exact h
    · right; exact ⟨ts, h⟩
  · intro m hm
    simp only [List.mem_cons] at hm
    rcases hm with hm | hm
    · subst hm
      refine ⟨by simp [userEntry], by simp [userEntry], by simp [userEntry]⟩
    · rcases hsh with h | ⟨ts, h⟩
      · rw [h] at hm
        simp at hm
      · rw [h] at hm
        simp only [List.mem_singleton] at hm
        subst hm
        refine ⟨by simp [assistantEntry], by simp [assistantEntry],
          by simp [assistantEntry]⟩

theorem fileExists_removeFile_self (name : String) (dir : MailboxDir) :
    fileExists name (removeFile name dir) = false := by
  induction dir with
  | nil => rfl
  | cons f rest ih =>
    simp only [removeFile, fileExists] at ih ⊢
    by_cases hf : f.1 = name
    · simpa [List.filter_cons, hf] using ih
    · simpa [List.filter_cons, hf] using ih

/-- Claim C8: whenever the close sentinel file exists, `shouldClose()`
returns true and removes the sentinel, and an immediate second call on the
resulting state returns false and leaves the state unchanged. -/
theorem shouldClose_consuming_idempotent (dir : MailboxDir)
    (h : fileExists CLOSE_SENTINEL_NAME dir = true) :
    (shouldClose dir).1 = true ∧
    fileExists CLOSE_SENTINEL_NAME (shouldClose dir).2 = false ∧
    (shouldClose (shouldClose dir).2).1 = false ∧
    (shouldClose (shouldClose dir).2).2 = (shouldClose dir).2 := by
  have hgone := fileExists_removeFile_self CLOSE_SENTINEL_NAME dir
  simp [shouldClose, h, hgone]

/-- Witness for C8: the concrete mailbox state `dirW`, which contains the
close sentinel. -/
theorem shouldClose_consuming_idempotent_witness :
    (shouldClose dirW).1 = true ∧
    fileExists CLOSE_SENTINEL_NAME (shouldClose dirW).2 = false ∧
    (shouldClose (shouldClose dirW).2).1 = false ∧
    (shouldClose (shouldClose dirW).2).2 = (shouldClose dirW).2 :=
  shouldClose_consuming_idempotent dirW (by decide)

/-- Counterexample to C3 as stated: the startup-failure error frame
(written when the initial stdin payload fails to parse, before the session
identifier is generated) carries no session identifier at all. -/
theorem startupErrorFrame_no_sessionId :
    (startupErrorFrame "Failed to parse input: unexpected end of input").newSessionId =
      none := rfl

/-- Claim C3 as amended: every output frame written after session start
(success frames, heartbeat frames and the turn-fatal error frame) carries
the session identifier; the startup-failure frame, written before any
session identifier exists, carries none. -/
theorem sessionFrames_carry_sessionId (sessionId : String) :
    (∀ (steps : List TurnStep) (f : ContainerOutput),
      f ∈ sessionFrames sessionId steps → f.newSessionId = some sessionId) ∧
    (∀ errMsg : String, (startupErrorFrame errMsg).newSessionId = none) := by
  constructor
  · intro steps
    induction steps with
    | nil => intro f hf; simp [sessionFrames] at hf
    | cons st rest ih =>
      intro f hf
      cases st with
      | closedAfter r =>
        simp only [sessionFrames, List.mem_singleton] at hf
        subst hf; rfl
      | closedAtWait r =>
        simp only [sessionFrames, List.mem_cons, List.mem_singleton,
          List.not_mem_nil, or_false] at hf
        rcases hf with hf | hf
        · subst hf; rfl
        · subst hf; rfl
      | next r p =>
        simp only [sessionFrames, List.mem_cons] at hf
        rcases hf with hf | hf | hf
        · subst hf; rfl
        · subst hf; rfl
        · exact ih f hf
      | failed e =>
        simp only [sessionFrames, List.mem_singleton] at hf
        subst hf; rfl
  · intro errMsg; rfl

/-- Witness for C3 as amended: a concrete two-turn trace ending in a
turn-fatal error; the heartbeat frame of the first turn carries the
session identifier. -/
theorem sessionFrames_carry_sessionId_witness :
    (heartbeatFrame "betty-1700000000000").newSessionId = some "betty-1700000000000" :=
  (sessionFrames_carry_sessionId "betty-1700000000000").1
    [TurnStep.next "hello" "again", TurnStep.failed "boom"]
    (heartbeatFrame "betty-1700000000000") (by decide)

/-- Claim C7: each emitted record occupies exactly three standard-output
lines — the literal start marker, the serialized record, the literal end
marker — and for every batch of records the delimiting scan of the
resulting stream recovers exactly the serialized records, one per marker
pair, so no frame content lies outside a marker pair. -/
theorem writeOutput_framing (serialize : ContainerOutput → String) :
    (∀ o : ContainerOutput,
      writeOutput serialize o = [OUTPUT_START_MARKER, serialize o, OUTPUT_END_MARKER]) ∧
    (∀ frames : List ContainerOutput,
      extractRecords (emitAll serialize frames) = frames.map serialize) := by
  constructor
  · intro o; rfl
  · intro frames
    induction frames with
    | nil => rfl
    | cons o rest ih =>
      show extractGo ScanState.outside
        (OUTPUT_START_MARKER :: serialize o :: OUTPUT_END_MARKER ::
          emitAll serialize rest) = serialize o :: rest.map serialize
      simp only [extractGo, if_pos rfl]
      exact congrArg (serialize o :: ·) ih

theorem lookupFile_none_iff (name : String) (dir : MailboxDir) :
    lookupFile name dir = none ↔ ∀ f ∈ dir, f.1 ≠ name := by
  induction dir with
  | nil => simp [lookupFile]
  | cons f rest ih =>
    simp only [lookupFile]
    by_cases hf : f.1 = name
    · rw [if_pos hf]
      constructor
      · intro h
        exact (Option.some_ne_none _ h).elim
      · intro h
        exact absurd hf (h f (List.mem_cons_self f rest))
    · rw [if_neg hf, ih]
      constructor
      · intro h g hg
        rcases List.mem_cons.mp hg with hg | hg
        · subst hg; exact hf
        · exact h g hg
      · intro h g hg
        exact h g (List.mem_cons_of_mem f hg)

theorem lookupFile_removeFile {m n : String} (hmn : m ≠ n) :
    ∀ dir : MailboxDir, lookupFile m (removeFile n dir) = lookupFile m dir := by
  intro dir
  induction dir with
  | nil => rfl
  | cons f rest ih =>
    show lookupFile m ((f :: rest).filter (fun g => g.1 ≠ n)) = lookupFile m (f :: rest)
    rw [List.filter_cons]
    by_cases hfn : f.1 = n
    · have hd : (decide (f.1 ≠ n)) = false := by simp [hfn]
      rw [hd]
      simp only [Bool.false_eq_true, if_false]
      have hfm : f.1 ≠ m := by
        rw [hfn]
        exact fun he => hmn he.symm
      rw [show lookupFile m (f :: rest) = lookupFile m rest from by
        simp only [lookupFile]
        rw [if_neg hfm]]
      exact ih
    · have hd : (decide (f.1 ≠ n)) = true := by simp [hfn]
      rw [hd]
      simp only [if_true]
      simp only [lookupFile]
      by_cases hfm : f.1 = m
      · rw [if_pos hfm, if_pos hfm]
      · rw [if_neg hfm, if_neg hfm]
        exact ih

/-- One pass of the drain loop over a duplicate-free list of file names:
the extracted texts are the payloads of the named files in list order, and
the directory afterwards holds exactly the files whose names were not in
the list. -/
theorem drain_foldl :
    ∀ (ns : List String) (acc : List String) (dir : MailboxDir), ns.Nodup →
      ns.foldl drainStep (acc, dir) =
        (acc ++ ns.filterMap (fun n => (lookupFile n dir).bind messagePayload),
         dir.filter (fun f => decide (f.1 ∉ ns))) := by
  intro ns
  induction ns with
  | nil =>
    intro acc dir _
    simp
  | cons n ns ih =>
    intro acc dir hnd
    obtain ⟨hn, hnd2⟩ := List.nodup_cons.mp hnd
    rw [List.foldl_cons]
    cases hlk : lookupFile n dir with
    | none =>
      have hstep : drainStep (acc, dir) n = (acc, dir) := by
        simp [drainStep, hlk]
      rw [hstep, ih acc dir hnd2]
      have hno : ∀ f ∈ dir, f.1 ≠ n := (lookupFile_none_iff n dir).mp hlk
      simp only [Prod.mk.injEq]
      constructor
      · rw [List.filterMap_cons]
        simp [hlk]
      · apply List.filter_congr
        intro f hf
        have := hno f hf
        simp [List.mem_cons, this]
    | some fc =>
      have hstep : drainStep (acc, dir) n =
          ((match messagePayload fc with
            | some tx => acc ++ [tx]
            | none => acc), removeFile n dir) := by
        simp [drainStep, hlk]
      rw [hstep, ih _ _ hnd2]
      simp only [Prod.mk.injEq]
      constructor
      · have hfm : ns.filterMap
            (fun m => (lookupFile m (removeFile n dir)).bind messagePayload) =
            ns.filterMap (fun m => (lookupFile m dir).bind messagePayload) :=
          List.filterMap_congr
            (fun m hm => by
              rw [lookupFile_removeFile (fun he => hn (by rw [← he]; exact hm)) dir])
        rw [hfm, List.filterMap_cons]
        simp only [hlk, Option.some_bind]
        cases messagePayload fc with
        | none => simp
        | some tx => simp
      · show ((dir.filter (fun f => f.1 ≠ n)).filter (fun f => decide (f.1 ∉ ns))) = _
        rw [List.filter_filter]
        apply List.filter_congr
        intro f hf
        by_cases h1 : f.1 = n
        · by_cases h2 : f.1 ∈ ns <;> simp [h1, h2, List.mem_cons]
        · by_cases h2 : f.1 ∈ ns <;> simp [h1, h2, List.mem_cons]

theorem insertLe_perm (le : α → α → Bool) (a : α) :
    ∀ l : List α, (insertLe le a l).Perm (a :: l) := by
  intro l
  induction l with
  | nil => exact List.Perm.refl _
  | cons b bs ih =>
    simp only [insertLe]
    by_cases hab : le a b = true
    · rw [if_pos hab]
    · rw [if_neg hab]
      exact (ih.cons b).trans (List.Perm.swap a b bs)

theorem sortLe_perm (le : α → α → Bool) :
    ∀ l : List α, (sortLe le l).Perm l := by
  intro l
  induction l with
  | nil => exact List.Perm.refl _
  | cons a as ih =>
    simp only [sortLe]
    exact (insertLe_perm le a (sortLe le as)).trans (ih.cons a)

theorem chain'_insertLe (le : α → α → Bool)
    (htot : ∀ a b, le a b = true ∨ le b a = true) (a : α) :
    ∀ l : List α, List.Chain' (fun x y => le x y = true) l →
      List.Chain' (fun x y => le x y = true) (insertLe le a l) := by
  intro l
  induction l with
  | nil => intro _; simp [insertLe]
  | cons b bs ih =>
    intro h
    simp only [insertLe]
    by_cases hab : le a b = true
    · rw [if_pos hab]
      exact List.chain'_cons.mpr ⟨hab, h⟩
    · rw [if_neg hab]
      have hba : le b a = true := (htot a b).resolve_left hab
      have hbs : List.Chain' (fun x y => le x y = true) bs := (List.chain'_cons'.mp h).2
      apply List.chain'_cons'.mpr
      refine ⟨?_, ih hbs⟩
      intro y hy
      cases bs with
      | nil =>
        simp [insertLe] at hy
        subst hy
        exact hba
      | cons c cs =>
        simp only [insertLe] at hy
        by_cases hac : le a c = true
        · rw [if_pos hac] at hy
          simp only [List.head?_cons, Option.mem_def, Option.some.injEq] at hy
          subst hy
          exact hba
        · rw [if_neg hac] at hy
          simp only [List.head?_cons, Option.mem_def, Option.some.injEq] at hy
          subst hy
          exact (List.chain'_cons.mp h).1

theorem chain'_sortLe (le : α → α → Bool)
    (htot : ∀ a b, le a b = true ∨ le b a = true) :
    ∀ l : List α, List.Chain' (fun x y => le x y = true) (sortLe le l) := by
  intro l
  induction l with
  | nil => simp [sortLe]
  | cons a as ih =>
    simp only [sortLe]
    exact chain'_insertLe le htot a (sortLe le as) ih

theorem lexLe_total : ∀ a b : List Char, lexLe a b = true ∨ lexLe b a = true := by
  intro a
  induction a with
  | nil => intro b; left; rfl
  | cons x xs ih =>
    intro b
    cases b with
    | nil => right; rfl
    | cons y ys =>
      by_cases hxy : x = y
      · subst hxy
        simp only [lexLe, beq_self_eq_true, if_true]
        exact ih ys
      · have h1 : (x == y) = false := by simp [hxy]
        have h2 : (y == x) = false := by simp [Ne.symm hxy]
        simp only [lexLe, h1, h2, Bool.false_eq_true, if_false]
        have hne : x.toNat ≠ y.toNat :=
          fun he => hxy (Char.ext (UInt32.eq_of_val_eq (Fin.ext he)))
        rcases Nat.lt_or_ge x.toNat y.toNat with hlt | hge
        · left; simpa using hlt
        · right; simp only [decide_eq_true_eq]; omega

theorem mem_eligibleNames {dir : MailboxDir} {x : String} :
    x ∈ eligibleNames dir ↔
      (hasSuffix ".json".data x.data = true ∧ x ∈ dir.map Prod.fst) := by
  unfold eligibleNames
  rw [(sortLe_perm _ _).mem_iff, List.mem_filter]
  exact ⟨fun h => ⟨h.2, h.1⟩, fun h => ⟨h.2, h.1⟩⟩

theorem eligibleNames_nodup {dir : MailboxDir}
    (h : (dir.map Prod.fst).Nodup) : (eligibleNames dir).Nodup :=
  (sortLe_perm _ _).symm.nodup (h.filter _)

/-- The drain characterization shared by the eligibility theorems: with
duplicate-free file names, the extracted texts are the message payloads of
the `.json` files taken in sorted name order, and the directory afterwards
holds exactly the files whose names do not end in `.json`, in their
original order. -/
theorem drain_char (dir : MailboxDir) (h : (dir.map Prod.fst).Nodup) :
    (drainIpcInput dir).1 =
      (eligibleNames dir).filterMap
        (fun n => (lookupFile n dir).bind messagePayload) ∧
    (drainIpcInput dir).2 =
      dir.filter (fun f => !(hasSuffix ".json".data f.1.data)) := by
  have hfold := drain_foldl (eligibleNames dir) [] dir (eligibleNames_nodup h)
  unfold drainIpcInput
  rw [hfold]
  constructor
  · simp
  · apply List.filter_congr
    intro f hf
    have hmem : f.1 ∈ dir.map Prod.fst := List.mem_map_of_mem Prod.fst hf
    by_cases hjs : hasSuffix ".json".data f.1.data = true
    · have : f.1 ∈ eligibleNames dir := mem_eligibleNames.mpr ⟨hjs, hmem⟩
      simp [this, hjs]
    · have : f.1 ∉ eligibleNames dir := fun hc => hjs (mem_eligibleNames.mp hc).1
      simp only [Bool.not_eq_true] at hjs
      simp [this, hjs]

/-- Claim C4: `drain()` returns the text payloads of the pending
actionable message files in lexicographic file-name order (the processed
name listing is sorted), deletes every `.json` file it processed — leaving
exactly the non-eligible files — and a file that fails to parse or is not
an actionable message contributes nothing to the returned
sequence while still being deleted. -/
theorem drainIpcInput_spec (dir : MailboxDir) (h : (dir.map Prod.fst).Nodup) :
    (drainIpcInput dir).1 =
      (eligibleNames dir).filterMap
        (fun n => (lookupFile n dir).bind messagePayload) ∧
    List.Chain' (fun a b => lexLe a.data b.data = true) (eligibleNames dir) ∧
    (drainIpcInput dir).2 =
      dir.filter (fun f => !(hasSuffix ".json".data f.1.data)) := by
  obtain ⟨h1, h2⟩ := drain_char dir h
  refine ⟨h1, ?_, h2⟩
  exact chain'_sortLe (fun a b : String => lexLe a.data b.data)
    (fun a b => lexLe_total a.data b.data) _

/-- Witness for C4: the concrete mailbox `dirW`; the two actionable
message files come back in name order even though they were listed out of
order, and only the sentinel and the non-json file survive. -/
theorem drainIpcInput_spec_witness :
    (drainIpcInput dirW).1 = ["first", "second"] ∧
    (drainIpcInput dirW).2 =
      [("_close", FileContent.malformed),
       ("notes.txt", FileContent.parsed "message" "never")] := by
  have h := drainIpcInput_spec dirW (by decide)
  refine ⟨?_, ?_⟩
  · rw [h.1]; decide
  · rw [h.2.2]; decide

theorem lookupFile_filter {n : String} {q : String × FileContent → Bool}
    (hq : ∀ f : String × FileContent, f.1 = n → q f = true) :
    ∀ dir : MailboxDir, lookupFile n (dir.filter q) = lookupFile n dir := by
  intro dir
  induction dir with
  | nil => rfl
  | cons f rest ih =>
    rw [List.filter_cons]
    by_cases hf : f.1 = n
    · rw [hq f hf]
      simp only [if_true, lookupFile, if_pos hf]
    · by_cases hqf : q f = true
      · rw [hqf]
        simp only [if_true, lookupFile, if_neg hf]
        exact ih
      · rw [Bool.not_eq_true] at hqf
        rw [hqf]
        simp only [Bool.false_eq_true, if_false, lookupFile, if_neg hf]
        exact ih

/-- Claim C10: `drain()` considers only files whose names end in `.json`:
the returned texts are unchanged if the directory is restricted to its
`.json` files, and every file without that suffix (the close sentinel
included) is left in place undeleted. -/
theorem map_fst_filter_json (dir : MailboxDir) :
    (dir.filter (fun f => hasSuffix ".json".data f.1.data)).map Prod.fst =
      (dir.map Prod.fst).filter (fun n => hasSuffix ".json".data n.data) := by
  induction dir with
  | nil => rfl
  | cons f rest ihd =>
    rw [List.filter_cons, List.map_cons, List.filter_cons]
    by_cases hf : hasSuffix ".json".data f.1.data = true
    · rw [hf]
      simp only [if_true, List.map_cons, ihd]
    · rw [Bool.not_eq_true] at hf
      rw [hf]
      simp only [Bool.false_eq_true, if_false, ihd]

theorem drainIpcInput_json_only (dir : MailboxDir)
    (h : (dir.map Prod.fst).Nodup) :
    (drainIpcInput dir).1 =
      (drainIpcInput (dir.filter (fun f => hasSuffix ".json".data f.1.data))).1 ∧
    ∀ f ∈ dir, hasSuffix ".json".data f.1.data = false →
      f ∈ (drainIpcInput dir).2 := by
  have hsub : (dir.filter (fun f => hasSuffix ".json".data f.1.data)).Sublist dir :=
    List.filter_sublist dir
  have hnodup2 : ((dir.filter
      (fun f => hasSuffix ".json".data f.1.data)).map Prod.fst).Nodup :=
    (hsub.map Prod.fst).nodup h
  obtain ⟨h1, h2⟩ := drain_char dir h
  obtain ⟨h1j, _⟩ := drain_char _ hnodup2
  constructor
  · rw [h1, h1j]
    have helig : eligibleNames (dir.filter (fun f => hasSuffix ".json".data f.1.data)) =
        eligibleNames dir := by
      unfold eligibleNames
      rw [map_fst_filter_json, List.filter_filter]
      congr 1
      apply List.filter_congr
      intro n _
      exact Bool.and_self _
    rw [helig]
    apply List.filterMap_congr
    intro n hn
    have hjs : hasSuffix ".json".data n.data = true := (mem_eligibleNames.mp hn).1
    rw [lookupFile_filter (fun f hf => by rw [hf]; exact hjs) dir]
  · intro f hf hjs
    rw [h2]
    exact List.mem_filter.mpr ⟨hf, by rw [hjs]; rfl⟩

/-- Witness for C10: in the concrete mailbox `dirW`, restricting to the
json files does not change the drained texts, and the non-json file
survives the drain. -/
theorem drainIpcInput_json_only_witness :
    (drainIpcInput dirW).1 =
      (drainIpcInput (dirW.filter (fun f => hasSuffix ".json".data f.1.data))).1 ∧
    ("notes.txt", FileContent.parsed "message" "never") ∈ (drainIpcInput dirW).2 := by
  have h := drainIpcInput_json_only dirW (by decide)
  exact ⟨h.1, h.2 ("notes.txt", FileContent.parsed "message" "never")
    (by decide) (by decide)⟩

/-- Witness for C7: a concrete two-frame batch with a constant serializer;
the scanner recovers both serialized records. -/
theorem writeOutput_framing_witness :
    extractRecords
      (emitAll (fun _ => "payload") [heartbeatFrame "s1", startupErrorFrame "boom"]) =
      List.map (fun _ => "payload")
        ([heartbeatFrame "s1", startupErrorFrame "boom"] : List ContainerOutput) :=
  (writeOutput_framing (fun _ => "payload")).2 [heartbeatFrame "s1", startupErrorFrame "boom"]

/-- Witness for C9: the invariant instantiated at a concrete oracle that
returns no choice. -/
theorem runConversation_appended_invariant_witness :
    ∃ rest,
      (runConversation (fun _ => none) (fun _ _ => "") (fun _ => "T") [] "sys" "hi").appended =
        userEntry "hi" "T" :: rest ∧
      (rest = [] ∨ ∃ ts, rest =
        [assistantEntry
          (runConversation (fun _ => none) (fun _ _ => "") (fun _ => "T") [] "sys" "hi").result
          ts]) ∧
      ∀ m ∈ (runConversation (fun _ => none) (fun _ _ => "") (fun _ => "T") [] "sys"
          "hi").appended,
        m.role ≠ Role.tool ∧ m.tool_calls = none ∧ m.tool_call_id = none :=
  runConversation_appended_invariant (fun _ => none) (fun _ _ => "") (fun _ => "T") [] "sys" "hi"

end Nanoclaw
